import Mathlib

/-!
A shallow embedding of `src/group_theory/group.py`: finite groups described by
an explicit list of element labels together with a binary operation, plus the
element-level arithmetic of `GroupElement`.  Python object-level details are
rendered as follows: Python `None` becomes `Option.none`, a raised exception
becomes an explicit error result, and the in-place caching of the identity
value becomes the explicit `identityCache` function (the mutation is benign:
it only ever replaces an unset cache by the value `identityValue` computes).
-/

namespace GroupTheory

/-- Mirrors `class Group` (`group.py`): the stored `element_values` list, the
stored binary `_operation`, and the optional cached `_identity_value`
(defaulting to Python `None`, i.e. `none`). -/
structure Group (α : Type) where
  element_values : List α
  operation : α → α → α
  identity_value : Option α := none

/-- Mirrors `Group.__eq__` against another `Group` (lines 9-23): set equality
of the element lists, equality of the cached identity values, and agreement of
the two operations on every ordered pair drawn from `self.element_values`. -/
def Group.eqb {α : Type} [DecidableEq α] (G H : Group α) : Bool :=
  ((G.element_values.all fun x => decide (x ∈ H.element_values)) &&
    (H.element_values.all fun x => decide (x ∈ G.element_values)) &&
    (G.identity_value == H.identity_value)) &&
  (G.element_values.all fun a =>
    G.element_values.all fun b => G.operation a b == H.operation a b)

/-- Mirrors `Group.order` (line 46): the length of `element_values`. -/
def Group.order {α : Type} (G : Group α) : Nat :=
  G.element_values.length

/-- Mirrors `Group.is_abelian` (lines 49-52). -/
def Group.isAbelian {α : Type} [DecidableEq α] (G : Group α) : Bool :=
  G.element_values.all fun a =>
    G.element_values.all fun b => G.operation a b == G.operation b a

/-- The label `Group.identity` (lines 31-38) ends up returning: the cached
`_identity_value` if set, otherwise the first element of `element_values`
that is a two-sided identity for every element of the list (`none` when the
search fails, modelling the Python `None` left in place). -/
def Group.identityValue {α : Type} [DecidableEq α] (G : Group α) : Option α :=
  match G.identity_value with
  | some v => some v
  | none =>
    G.element_values.find? fun e =>
      G.element_values.all fun x =>
        (G.operation e x == x) && (G.operation x e == x)

/-- The state of the group object after `Group.identity` has run once: the
computed identity label is written into the `_identity_value` cache. -/
def Group.identityCache {α : Type} [DecidableEq α] (G : Group α) : Group α :=
  { G with identity_value := G.identityValue }

/-- Mirrors `class GroupElement` (lines 105-110): a label paired with the
owning group. -/
structure GroupElement (α : Type) where
  element : α
  group : Group α

/-- `Group.identity` (lines 31-38) as seen by the caller: the returned
`GroupElement` wraps the identity label and the group itself.  A malformed
group, where Python would return `GroupElement(None, self)`, is rendered as
`none`. -/
def Group.identityGE {α : Type} [DecidableEq α] (G : Group α) :
    Option (GroupElement α) :=
  G.identityValue.map fun i => ⟨i, G⟩

/-- Mirrors `Group.inverse` (lines 40-44): linear search for the first `x`
with `operation(a, x) == identity().element` and
`operation(x, a) == identity().element`; raises
`ValueError(f"Inverse not found for {a}")` when the search fails.  The
comparison against `identity().element` is a comparison against the (possibly
`None`) identity label, hence the `Option`-level equality. -/
def Group.inverse {α : Type} [DecidableEq α] [ToString α] (G : Group α)
    (a : α) : Except String α :=
  match G.element_values.find? (fun x =>
      (some (G.operation a x) == G.identityValue) &&
      (some (G.operation x a) == G.identityValue)) with
  | some x => Except.ok x
  | none => Except.error ("Inverse not found for " ++ toString a)

/-- Mirrors `GroupElement.__mul__` (lines 112-113): the left operand's group
performs the operation and owns the result. -/
def GroupElement.mul {α : Type} (a b : GroupElement α) : GroupElement α :=
  ⟨a.group.operation a.element b.element, a.group⟩

/-- Mirrors `GroupElement.__eq__` against another `GroupElement`
(lines 126-127): label equality and full semantic group equality. -/
def GroupElement.eqb {α : Type} [DecidableEq α] (a b : GroupElement α) :
    Bool :=
  (a.element == b.element) && a.group.eqb b.group

/-- Mirrors `GroupElement.inverse` (lines 138-139): delegate to the owning
group's `inverse` and wrap the found label. -/
def GroupElement.inverse {α : Type} [DecidableEq α] [ToString α]
    (e : GroupElement α) : Except String (GroupElement α) :=
  (e.group.inverse e.element).map fun x => ⟨x, e.group⟩

/-- The loop of the positive branch of `GroupElement.__pow__` (lines 118-121):
`result = self`, then `result *= self` repeated `k` times, so
`iterSelf e k` is `e ** (k + 1)`. -/
def GroupElement.iterSelf {α : Type} (e : GroupElement α) :
    Nat → GroupElement α
  | 0 => e
  | k + 1 => (e.iterSelf k).mul e

/-- Result of `GroupElement.__pow__`: a `GroupElement`, or the Python object
`GroupElement(None, group)` produced when `n == 0` on a group with no
identity (`noneIdentity`), or a propagated `ValueError` from `inverse`. -/
inductive PowResult (α : Type) where
  | ok (g : GroupElement α)
  | noneIdentity
  | raise (msg : String)

/-- Mirrors `GroupElement.__pow__` (lines 115-124): `n == 0` returns the
group's identity; `n > 0` multiplies `self` into itself `n - 1` times;
`n < 0` computes `self.inverse() ** (-n)` — the recursive call lands in the
positive branch (since `-n > 0`), so it is inlined here as `iterSelf` of the
inverse element. -/
def GroupElement.pow {α : Type} [DecidableEq α] [ToString α]
    (e : GroupElement α) (n : Int) : PowResult α :=
  if n = 0 then
    match e.group.identityGE with
    | some g => PowResult.ok g
    | none => PowResult.noneIdentity
  else if 0 < n then
    PowResult.ok (e.iterSelf (n.toNat - 1))
  else
    match e.group.inverse e.element with
    | Except.ok x => PowResult.ok (GroupElement.iterSelf ⟨x, e.group⟩ ((-n).toNat - 1))
    | Except.error msg => PowResult.raise msg

/-- The loop condition of `GroupElement.order` (line 144), unfolded:
`power != self.group.identity()` is the negation of
`power.element == identity.element and power.group == identity.group`; the
identity's element is the (possibly `None`) identity label and both group
references denote the same object, compared by `Group.__eq__`. -/
def Group.loopCond {α : Type} [DecidableEq α] (G : Group α) (power : α) :
    Bool :=
  (some power == G.identityValue) && G.eqb G

/-- The `while` loop of `GroupElement.order` (lines 141-147), with explicit
fuel standing in for unbounded iteration: starting from `power` and `count`,
return `count` as soon as `power` compares equal to the identity, otherwise
continue with `power * e` and `count + 1`. -/
def Group.orderLoop {α : Type} [DecidableEq α] (G : Group α) (e : α) :
    Nat → α → Nat → Option Nat
  | 0, power, count => if G.loopCond power then some count else none
  | fuel + 1, power, count =>
    if G.loopCond power then some count
    else G.orderLoop e fuel (G.operation power e) (count + 1)

/-- Mirrors `GroupElement.order` (lines 141-147): `power = self`,
`order = 1`, loop while `power != identity`.  The fuel
`e.group.element_values.length` is enough for every well-formed group (proved
below); `none` models non-termination within that bound. -/
def GroupElement.order {α : Type} [DecidableEq α] (e : GroupElement α) :
    Option Nat :=
  e.group.orderLoop e.element e.group.element_values.length e.element 1

/-- The nested generator `cartesian_product` inside `Group.direct_product`
(lines 60-66): with no iterables it yields the empty tuple once; otherwise,
for each item of the first iterable and each tuple of the product of the
rest, it yields the item prepended.  Python tuples of labels are rendered as
lists of labels. -/
def cartesianProduct {α : Type} : List (List α) → List (List α)
  | [] => [[]]
  | l :: rest => prependAll l (cartesianProduct rest)
where
  prependAll : List α → List (List α) → List (List α)
    | [], _ => []
    | x :: xs, rs => rs.map (fun r => x :: r) ++ prependAll xs rs

/-- The component-wise `operation` built by `Group.direct_product`
(lines 70-71): `tuple(group._operation(a[i], b[i]) for i, group in
enumerate(groups))`; on tuples of matching length this is exactly the
zip of the three lists. -/
def componentwiseOp {α : Type} :
    List (Group α) → List α → List α → List α
  | g :: gs, x :: xs, y :: ys =>
    g.operation x y :: componentwiseOp gs xs ys
  | _, _, _ => []

/-- Combines the per-factor identity labels into the product's
`identity_value` (line 73): `tuple(group.identity().element for group in
groups)`.  A factor whose identity search fails would put Python `None`
inside the tuple; that degenerate tuple is rendered as `none` for the whole
cache (no claim exercises it). -/
def identityTuple {α : Type} [DecidableEq α] :
    List (Group α) → Option (List α)
  | [] => some []
  | g :: gs => do
    let i ← g.identityValue
    let rest ← identityTuple gs
    pure (i :: rest)

/-- Mirrors the variadic `Group.direct_product(*groups)` (lines 55-75),
with Python tuples rendered as lists of labels over a common label type. -/
def Group.directProduct {α : Type} [DecidableEq α] (groups : List (Group α)) :
    Group (List α) where
  element_values := cartesianProduct (groups.map fun g => g.element_values)
  operation := fun a b => componentwiseOp groups a b
  identity_value := identityTuple groups

/-- Mirrors `Group.semidirect_product(N, H, action)` (lines 78-90): elements
are the pairs `(n, h)` in the order of the list comprehension, the operation
is `(N.operation(n1, action(h1, n2)), H.operation(h1, h2))`, and no
`identity_value` is passed to the constructor (so it defaults to `None`). -/
def Group.semidirectProduct {α β : Type} (N : Group α) (H : Group β)
    (action : β → α → α) : Group (α × β) where
  element_values :=
    pairList N.element_values H.element_values
  operation := fun a b =>
    (N.operation a.1 (action a.2 b.1), H.operation a.2 b.2)
  identity_value := none
where
  pairList : List α → List β → List (α × β)
    | [], _ => []
    | n :: ns, hs => hs.map (fun h => (n, h)) ++ pairList ns hs

/-- The `name` attribute a factor presents to
`getattr(group, 'name', f"Group{i}")` in `NamedGroup.direct_product`
(line 101): a plain `Group` has no such attribute at all (`noAttr`), while a
`NamedGroup` always has one, possibly set to Python `None`
(`attr none`). -/
inductive FactorName where
  | noAttr
  | attr (v : Option String)
deriving DecidableEq

/-- `getattr(group, 'name', f"Group{i}")` for factor number `i`
(line 101). -/
def getattrName (i : Nat) : FactorName → Option String
  | FactorName.noAttr => some ("Group" ++ toString i)
  | FactorName.attr v => v

/-- Python `str.join` over a generator that may produce `None`: `join`
raises `TypeError` at any non-string item, otherwise concatenates with the
separator. -/
def joinStrs (sep : String) (items : List (Option String)) :
    Except String String :=
  match collect items with
  | some ss => Except.ok (String.intercalate sep ss)
  | none => Except.error "TypeError: sequence item: expected str instance, NoneType found"
where
  collect : List (Option String) → Option (List String)
    | [] => some []
    | none :: _ => none
    | some s :: rest => (collect rest).map fun ss => s :: ss

/-- The composite-name computation of `NamedGroup.direct_product`
(line 101): `" × ".join(getattr(group, 'name', f"Group{i}") for i, group in
enumerate(groups))`, with factors abstracted to the `name` attribute they
present. -/
def productName (factors : List FactorName) : Except String String :=
  joinStrs " × " (factors.enum.map fun p => getattrName p.1 p.2)

/-- Result of a Python `__eq__` method call: an actual boolean, the
`NotImplemented` sentinel (which the interpreter resolves by falling back to
the reflected comparison and ultimately to object identity, i.e. not-equal
for distinct objects), or a raised `AttributeError`. -/
inductive EqResult where
  | bool (b : Bool)
  | notImplemented
  | attributeError
deriving DecidableEq

/-- A Python value a `Group` or `GroupElement` may be compared against: a
`Group`, a `GroupElement`, or a foreign object (an `int`, `str`, ...) with
neither an `element` nor a `group` attribute. -/
inductive PyVal (α : Type) where
  | groupObj (G : Group α)
  | elemObj (e : GroupElement α)
  | foreign (repr : String)

/-- Mirrors `Group.__eq__` (lines 9-11) on an arbitrary operand: the
`isinstance(other, Group)` guard returns `NotImplemented` for anything that
is not a `Group`. -/
def Group.eqPy {α : Type} [DecidableEq α] (G : Group α) :
    PyVal α → EqResult
  | PyVal.groupObj H => EqResult.bool (G.eqb H)
  | _ => EqResult.notImplemented

/-- Mirrors `GroupElement.__eq__` (lines 126-127) on an arbitrary operand:
the body reads `other.element` and `other.group` with no type guard, so any
operand without those attributes (a foreign object, or a `Group`) raises
`AttributeError`. -/
def GroupElement.eqPy {α : Type} [DecidableEq α] (e : GroupElement α) :
    PyVal α → EqResult
  | PyVal.elemObj f => EqResult.bool (e.eqb f)
  | _ => EqResult.attributeError

/-- The cyclic group of order 4 used throughout the repository's tests:
labels `0..3`, addition mod 4, identity `0`. -/
def pyC4 : Group Nat :=
  ⟨[0, 1, 2, 3], fun a b => (a + b) % 4, some 0⟩

/-- The cyclic group of order 2 from the tests: labels `0..1`, addition
mod 2, identity `0`. -/
def pyC2 : Group Nat :=
  ⟨[0, 1], fun a b => (a + b) % 2, some 0⟩

/-- The cyclic group of order 3 from the tests. -/
def pyC3 : Group Nat :=
  ⟨[0, 1, 2], fun a b => (a + b) % 3, some 0⟩

/-- The action of `test_semidirect_product`: the identity action for `h == 0`
and negation mod 4 for `h == 1`. -/
def dihedralAction (h n : Nat) : Nat :=
  if h == 0 then n else (4 - n) % 4

/-- The semidirect product `C4 ⋊ C2` of the tests: the dihedral group of
order 8. -/
def pyD4 : Group (Nat × Nat) :=
  Group.semidirectProduct pyC4 pyC2 dihedralAction

/-- A label that is a two-sided identity for every label in the group's
element list. -/
def IsIdentityElem {α : Type} (G : Group α) (i : α) : Prop :=
  ∀ x ∈ G.element_values, G.operation i x = x ∧ G.operation x i = x

instance {α : Type} [DecidableEq α] (G : Group α) (i : α) :
    Decidable (IsIdentityElem G i) :=
  inferInstanceAs (Decidable (∀ x ∈ G.element_values,
    G.operation i x = x ∧ G.operation x i = x))

/-- The caller-supplied precondition of the spec: the element set and the
operation satisfy the group axioms (closure, associativity, a two-sided
identity, inverses), and the cached `identity_value`, when provided, really
is the identity. -/
structure IsGroup {α : Type} (G : Group α) : Prop where
  closed : ∀ a ∈ G.element_values, ∀ b ∈ G.element_values,
    G.operation a b ∈ G.element_values
  assoc : ∀ a ∈ G.element_values, ∀ b ∈ G.element_values,
    ∀ c ∈ G.element_values,
    G.operation (G.operation a b) c = G.operation a (G.operation b c)
  idExists : ∃ i ∈ G.element_values, IsIdentityElem G i
  invExists : ∀ a ∈ G.element_values, ∃ b ∈ G.element_values,
    IsIdentityElem G (G.operation a b) ∧ IsIdentityElem G (G.operation b a)
  cacheOk : G.identity_value = none ∨
    ∃ i ∈ G.element_values, G.identity_value = some i ∧ IsIdentityElem G i

/-- The algebraic context the power lemmas run in: a list `l` closed under
an associative operation `op` with two-sided identity `i` drawn from `l`. -/
structure GroupCtx {α : Type} (op : α → α → α) (l : List α) (i : α) :
    Prop where
  closed : ∀ a ∈ l, ∀ b ∈ l, op a b ∈ l
  assoc : ∀ a ∈ l, ∀ b ∈ l, ∀ c ∈ l, op (op a b) c = op a (op b c)
  idl : ∀ x ∈ l, op i x = x
  idr : ∀ x ∈ l, op x i = x
  iMem : i ∈ l

/-- `opPow op i a k` is the `k`-fold right-iterated product
`((i · a) · a) ⋯ · a`; with `i` the identity it denotes the label of
`a ** k`. -/
def opPow {α : Type} (op : α → α → α) (i a : α) : Nat → α
  | 0 => i
  | k + 1 => op (opPow op i a k) a

/-- The label `GroupElement.__pow__` produces on a well-formed group: `a`
iterated for non-negative exponents, the inverse label `b` iterated for
negative ones. -/
def zOpPow {α : Type} (op : α → α → α) (i a b : α) (n : Int) : α :=
  if 0 ≤ n then opPow op i a n.toNat else opPow op i b (-n).toNat

/-- The state of the `power` variable of `GroupElement.order` after `d`
iterations of `power *= self` starting from `p`. -/
def stepMul {α : Type} (G : Group α) (e : α) : α → Nat → α
  | p, 0 => p
  | p, d + 1 => stepMul G e (G.operation p e) d

/-! ## Helper lemmas -/

lemma mem_pairList {α β : Type} (ns : List α) (hs : List β) (p : α × β) :
    p ∈ Group.semidirectProduct.pairList ns hs ↔ p.1 ∈ ns ∧ p.2 ∈ hs := by
  induction ns with
  | nil => simp [Group.semidirectProduct.pairList]
  | cons n ns ih =>
    simp only [Group.semidirectProduct.pairList, List.mem_append,
      List.mem_map, ih, List.mem_cons]
    constructor
    · rintro (⟨h, hh, rfl⟩ | ⟨h1, h2⟩)
      · exact ⟨Or.inl rfl, hh⟩
      · exact ⟨Or.inr h1, h2⟩
    · rintro ⟨h1 | h1, h2⟩
      · exact Or.inl ⟨p.2, h2, by rw [← h1]⟩
      · exact Or.inr ⟨h1, h2⟩

lemma Group.eqb_iff {α : Type} [DecidableEq α] (G H : Group α) :
    G.eqb H = true ↔
      ((∀ x ∈ G.element_values, x ∈ H.element_values) ∧
       (∀ x ∈ H.element_values, x ∈ G.element_values) ∧
       G.identity_value = H.identity_value ∧
       (∀ a ∈ G.element_values, ∀ b ∈ G.element_values,
         G.operation a b = H.operation a b)) := by
  simp only [Group.eqb, Bool.and_eq_true, List.all_eq_true,
    decide_eq_true_eq, beq_iff_eq]
  tauto

lemma Group.eqb_refl {α : Type} [DecidableEq α] (G : Group α) :
    G.eqb G = true :=
  (Group.eqb_iff G G).mpr ⟨fun _ h => h, fun _ h => h, rfl, fun _ _ _ _ => rfl⟩

lemma identity_unique {α : Type} (G : Group α) {i j : α}
    (hiM : i ∈ G.element_values) (hi : IsIdentityElem G i)
    (hjM : j ∈ G.element_values) (hj : IsIdentityElem G j) : i = j :=
  ((hj i hiM).2).symm.trans ((hi j hjM).1)

lemma identityValue_spec {α : Type} [DecidableEq α] (G : Group α)
    (h : IsGroup G) :
    ∃ i, G.identityValue = some i ∧ i ∈ G.element_values ∧
      IsIdentityElem G i := by
  rcases hv : G.identity_value with _ | v
  · obtain ⟨i, hiM, hi⟩ := h.idExists
    have hp : (G.element_values.all fun x =>
        (G.operation i x == x) && (G.operation x i == x)) = true := by
      simp only [List.all_eq_true, Bool.and_eq_true, beq_iff_eq]
      exact fun x hx => hi x hx
    rcases hfind : G.element_values.find? (fun e =>
        G.element_values.all fun x =>
          (G.operation e x == x) && (G.operation x e == x)) with _ | e₀
    · exact absurd hp (by simpa using List.find?_eq_none.mp hfind i hiM)
    · refine ⟨e₀, ?_, List.mem_of_find?_eq_some hfind, ?_⟩
      · simp [Group.identityValue, hv, hfind]
      · have hpe := List.find?_some hfind
        simp only [List.all_eq_true, Bool.and_eq_true, beq_iff_eq] at hpe
        exact fun x hx => hpe x hx
  · rcases h.cacheOk with hnone | ⟨i, hiM, hsome, hid⟩
    · rw [hv] at hnone; cases hnone
    · rw [hv] at hsome
      injection hsome with hiv
      exact ⟨v, by simp [Group.identityValue, hv], hiv ▸ hiM, hiv ▸ hid⟩

lemma inverse_ok {α : Type} [DecidableEq α] [ToString α] (G : Group α)
    (h : IsGroup G) {i : α} (hidv : G.identityValue = some i)
    (e : α) (he : e ∈ G.element_values) :
    ∃ b, G.inverse e = Except.ok b ∧ b ∈ G.element_values ∧
      G.operation e b = i ∧ G.operation b e = i := by
  obtain ⟨i', hidv', hiM, hid⟩ := identityValue_spec G h
  rw [hidv] at hidv'
  injection hidv' with hii
  subst hii
  obtain ⟨b, hbM, h1, h2⟩ := h.invExists e he
  have hab : G.operation e b = i :=
    identity_unique G (h.closed e he b hbM) h1 hiM hid
  have hba : G.operation b e = i :=
    identity_unique G (h.closed b hbM e he) h2 hiM hid
  have hpb : ((some (G.operation e b) == G.identityValue) &&
      (some (G.operation b e) == G.identityValue)) = true := by
    simp [hidv, hab, hba]
  rcases hfind : G.element_values.find? (fun x =>
      (some (G.operation e x) == G.identityValue) &&
      (some (G.operation x e) == G.identityValue)) with _ | x₀
  · exact absurd hpb (by simpa using List.find?_eq_none.mp hfind b hbM)
  · have hpx := List.find?_some hfind
    simp only [Bool.and_eq_true, beq_iff_eq, hidv, Option.some_inj] at hpx
    exact ⟨x₀, by simp [Group.inverse, hfind],
      List.mem_of_find?_eq_some hfind, hpx.1, hpx.2⟩

lemma find?_first {α : Type} {p : α → Bool} :
    ∀ {l : List α} {x : α}, l.find? p = some x →
      p x = true ∧ ∃ l1 l2, l = l1 ++ x :: l2 ∧ ∀ y ∈ l1, p y = false := by
  intro l
  induction l with
  | nil => intro x h; cases h
  | cons a as ih =>
    intro x h
    by_cases hpa : p a = true
    · rw [List.find?_cons_of_pos _ hpa] at h
      injection h with hax
      subst hax
      exact ⟨hpa, [], as, rfl, by simp⟩
    · rw [List.find?_cons_of_neg _ (by simpa using hpa)] at h
      obtain ⟨hp, l1, l2, hdecomp, hl1⟩ := ih h
      refine ⟨hp, a :: l1, l2, by rw [hdecomp, List.cons_append], ?_⟩
      intro y hy
      rcases List.mem_cons.mp hy with rfl | hy'
      · simpa using hpa
      · exact hl1 y hy'

lemma pyC4_isGroup : IsGroup pyC4 :=
  ⟨by decide, by decide, by decide, by decide, by decide⟩

lemma GroupCtx.opPow_mem {α : Type} {op : α → α → α} {l : List α} {i : α}
    (C : GroupCtx op l i) {a : α} (ha : a ∈ l) (k : Nat) :
    opPow op i a k ∈ l := by
  induction k with
  | zero => exact C.iMem
  | succ k ih => exact C.closed _ ih _ ha

lemma GroupCtx.opPow_succ_left {α : Type} {op : α → α → α} {l : List α}
    {i : α} (C : GroupCtx op l i) {a : α} (ha : a ∈ l) (k : Nat) :
    op a (opPow op i a k) = opPow op i a (k + 1) := by
  induction k with
  | zero =>
    show op a i = op i a
    rw [C.idr a ha, C.idl a ha]
  | succ k ih =>
    calc op a (opPow op i a (k + 1))
        = op (op a (opPow op i a k)) a :=
          (C.assoc a ha _ (C.opPow_mem ha k) a ha).symm
      _ = op (opPow op i a (k + 1)) a := by rw [ih]
      _ = opPow op i a (k + 2) := rfl

lemma GroupCtx.opPow_add {α : Type} {op : α → α → α} {l : List α} {i : α}
    (C : GroupCtx op l i) {a : α} (ha : a ∈ l) (m n : Nat) :
    opPow op i a (m + n) = op (opPow op i a m) (opPow op i a n) := by
  induction n with
  | zero =>
    show opPow op i a m = op (opPow op i a m) i
    rw [C.idr _ (C.opPow_mem ha m)]
  | succ n ih =>
    show op (opPow op i a (m + n)) a = _
    rw [ih]
    exact C.assoc _ (C.opPow_mem ha m) _ (C.opPow_mem ha n) a ha

lemma GroupCtx.opPow_cancel {α : Type} {op : α → α → α} {l : List α} {i : α}
    (C : GroupCtx op l i) {a b : α} (ha : a ∈ l) (hb : b ∈ l)
    (hab : op a b = i) (k : Nat) :
    op (opPow op i a k) (opPow op i b k) = i := by
  induction k with
  | zero => exact C.idl i C.iMem
  | succ k ih =>
    calc op (opPow op i a (k + 1)) (opPow op i b (k + 1))
        = op (opPow op i a k) (op a (opPow op i b (k + 1))) :=
          C.assoc _ (C.opPow_mem ha k) a ha _ (C.opPow_mem hb (k + 1))
      _ = op (opPow op i a k) (op a (op b (opPow op i b k))) := by
          rw [C.opPow_succ_left hb k]
      _ = op (opPow op i a k) (op (op a b) (opPow op i b k)) := by
          rw [C.assoc a ha b hb _ (C.opPow_mem hb k)]
      _ = op (opPow op i a k) (op i (opPow op i b k)) := by rw [hab]
      _ = op (opPow op i a k) (opPow op i b k) := by
          rw [C.idl _ (C.opPow_mem hb k)]
      _ = i := ih

lemma GroupCtx.opPow_mixed_right {α : Type} {op : α → α → α} {l : List α}
    {i : α} (C : GroupCtx op l i) {a b : α} (ha : a ∈ l) (hb : b ∈ l)
    (hab : op a b = i) {j k : Nat} (hkj : k ≤ j) :
    op (opPow op i a j) (opPow op i b k) = opPow op i a (j - k) := by
  have hjeq : j = (j - k) + k := by omega
  calc op (opPow op i a j) (opPow op i b k)
      = op (op (opPow op i a (j - k)) (opPow op i a k)) (opPow op i b k) :=
        by conv_lhs => rw [hjeq, C.opPow_add ha (j - k) k]
    _ = op (opPow op i a (j - k)) (op (opPow op i a k) (opPow op i b k)) :=
        C.assoc _ (C.opPow_mem ha _) _ (C.opPow_mem ha k) _
          (C.opPow_mem hb k)
    _ = op (opPow op i a (j - k)) i := by rw [C.opPow_cancel ha hb hab k]
    _ = opPow op i a (j - k) := C.idr _ (C.opPow_mem ha _)

lemma GroupCtx.opPow_mixed_left {α : Type} {op : α → α → α} {l : List α}
    {i : α} (C : GroupCtx op l i) {a b : α} (ha : a ∈ l) (hb : b ∈ l)
    (hba : op b a = i) {j k : Nat} (hkj : k ≤ j) :
    op (opPow op i b k) (opPow op i a j) = opPow op i a (j - k) := by
  have hjeq : j = k + (j - k) := by omega
  calc op (opPow op i b k) (opPow op i a j)
      = op (opPow op i b k) (op (opPow op i a k) (opPow op i a (j - k))) :=
        by conv_lhs => rw [hjeq, C.opPow_add ha k (j - k)]
    _ = op (op (opPow op i b k) (opPow op i a k)) (opPow op i a (j - k)) :=
        (C.assoc _ (C.opPow_mem hb k) _ (C.opPow_mem ha k) _
          (C.opPow_mem ha _)).symm
    _ = op i (opPow op i a (j - k)) := by rw [C.opPow_cancel hb ha hba k]
    _ = opPow op i a (j - k) := C.idl _ (C.opPow_mem ha _)

lemma GroupCtx.zOpPow_add {α : Type} {op : α → α → α} {l : List α} {i : α}
    (C : GroupCtx op l i) {a b : α} (ha : a ∈ l) (hb : b ∈ l)
    (hab : op a b = i) (hba : op b a = i) (m n : Int) :
    zOpPow op i a b (m + n) = op (zOpPow op i a b m) (zOpPow op i a b n) := by
  unfold zOpPow
  by_cases hm : 0 ≤ m <;> by_cases hn : 0 ≤ n
  · have hmn : 0 ≤ m + n := by omega
    simp only [if_pos hm, if_pos hn, if_pos hmn]
    have ht : (m + n).toNat = m.toNat + n.toNat := by omega
    rw [ht, C.opPow_add ha]
  · by_cases hmn : 0 ≤ m + n
    · simp only [if_pos hm, if_neg hn, if_pos hmn]
      have h1 : (-n).toNat ≤ m.toNat := by omega
      have h2 : m.toNat - (-n).toNat = (m + n).toNat := by omega
      rw [← h2]
      exact (C.opPow_mixed_right ha hb hab h1).symm
    · simp only [if_pos hm, if_neg hn, if_neg hmn]
      have h1 : m.toNat ≤ (-n).toNat := by omega
      have h2 : (-n).toNat - m.toNat = (-(m + n)).toNat := by omega
      rw [← h2]
      exact (C.opPow_mixed_left hb ha hab h1).symm
  · by_cases hmn : 0 ≤ m + n
    · simp only [if_neg hm, if_pos hn, if_pos hmn]
      have h1 : (-m).toNat ≤ n.toNat := by omega
      have h2 : n.toNat - (-m).toNat = (m + n).toNat := by omega
      rw [← h2]
      exact (C.opPow_mixed_left ha hb hba h1).symm
    · simp only [if_neg hm, if_pos hn, if_neg hmn]
      have h1 : n.toNat ≤ (-m).toNat := by omega
      have h2 : (-m).toNat - n.toNat = (-(m + n)).toNat := by omega
      rw [← h2]
      exact (C.opPow_mixed_right hb ha hba h1).symm
  · have hmn : ¬0 ≤ m + n := by omega
    simp only [if_neg hm, if_neg hn, if_neg hmn]
    have ht : (-(m + n)).toNat = (-m).toNat + (-n).toNat := by omega
    rw [ht, C.opPow_add hb]

lemma iterSelf_eq {α : Type} (G : Group α) {i x : α}
    (hx : G.operation i x = x) (k : Nat) :
    GroupElement.iterSelf ⟨x, G⟩ k = ⟨opPow G.operation i x (k + 1), G⟩ := by
  induction k with
  | zero =>
    show (⟨x, G⟩ : GroupElement α) = ⟨G.operation i x, G⟩
    rw [hx]
  | succ k ih =>
    show (GroupElement.iterSelf ⟨x, G⟩ k).mul ⟨x, G⟩ = _
    rw [ih]
    rfl

lemma pow_eq {α : Type} [DecidableEq α] [ToString α] (G : Group α)
    {i e b : α} (hidv : G.identityValue = some i)
    (hie : G.operation i e = e) (hib : G.operation i b = b)
    (hinv : G.inverse e = Except.ok b) (n : Int) :
    GroupElement.pow ⟨e, G⟩ n =
      PowResult.ok ⟨zOpPow G.operation i e b n, G⟩ := by
  unfold GroupElement.pow zOpPow
  by_cases h0 : n = 0
  · subst h0
    simp [Group.identityGE, hidv, opPow]
  · by_cases hpos : 0 < n
    · have hle : 0 ≤ n := le_of_lt hpos
      simp only [if_neg h0, if_pos hpos, if_pos hle]
      rw [iterSelf_eq G hie]
      have ht : n.toNat - 1 + 1 = n.toNat := by omega
      rw [ht]
    · have hneg : ¬0 ≤ n := by omega
      simp only [if_neg h0, if_neg hpos]
      rw [show (⟨e, G⟩ : GroupElement α).group.inverse
          (⟨e, G⟩ : GroupElement α).element = Except.ok b from hinv]
      rw [if_neg hneg]
      show PowResult.ok
        (GroupElement.iterSelf (⟨b, G⟩ : GroupElement α) ((-n).toNat - 1)) = _
      rw [iterSelf_eq G hib]
      have ht : (-n).toNat - 1 + 1 = (-n).toNat := by omega
      rw [ht]

lemma loopCond_iff {α : Type} [DecidableEq α] (G : Group α) {i : α}
    (hidv : G.identityValue = some i) (x : α) :
    G.loopCond x = true ↔ x = i := by
  simp [Group.loopCond, hidv, Group.eqb_refl]

lemma stepMul_opPow {α : Type} (G : Group α) (i e : α) :
    ∀ (d k : Nat),
    stepMul G e (opPow G.operation i e k) d = opPow G.operation i e (k + d) := by
  intro d
  induction d with
  | zero => intro k; rfl
  | succ d ih =>
    intro k
    show stepMul G e (G.operation (opPow G.operation i e k) e) d = _
    have : G.operation (opPow G.operation i e k) e =
        opPow G.operation i e (k + 1) := rfl
    rw [this, ih (k + 1)]
    congr 1
    omega

lemma orderLoop_some {α : Type} [DecidableEq α] (G : Group α) (e : α) :
    ∀ (fuel : Nat) (p : α) (c : Nat),
    (∃ d, d ≤ fuel ∧ G.loopCond (stepMul G e p d) = true) →
    ∃ d₀, G.loopCond (stepMul G e p d₀) = true ∧
      (∀ d' < d₀, G.loopCond (stepMul G e p d') = false) ∧
      G.orderLoop e fuel p c = some (c + d₀) := by
  intro fuel
  induction fuel with
  | zero =>
    rintro p c ⟨d, hd, hcond⟩
    interval_cases d
    refine ⟨0, hcond, by omega, ?_⟩
    have hp : G.loopCond p = true := hcond
    simp [Group.orderLoop, hp]
  | succ fuel ih =>
    rintro p c ⟨d, hd, hcond⟩
    by_cases hp : G.loopCond p = true
    · refine ⟨0, hp, by omega, ?_⟩
      simp [Group.orderLoop, hp]
    · have hd1 : d ≠ 0 := by
        intro h
        subst h
        exact hp hcond
      have hstep : stepMul G e (G.operation p e) (d - 1) =
          stepMul G e p d := by
        have : d = (d - 1) + 1 := by omega
        rw [this]
        rfl
      obtain ⟨d₀, h1, h2, h3⟩ := ih (G.operation p e) (c + 1)
        ⟨d - 1, by omega, by rw [hstep]; exact hcond⟩
      refine ⟨d₀ + 1, h1, ?_, ?_⟩
      · intro d' hd'
        match d' with
        | 0 => simpa [stepMul] using hp
        | d'' + 1 => exact h2 d'' (by omega)
      · have hrun : G.orderLoop e (fuel + 1) p c =
            G.orderLoop e fuel (G.operation p e) (c + 1) := by
          simp [Group.orderLoop, hp]
        rw [hrun, h3]
        congr 1
        omega

lemma exists_opPow_eq_id {α : Type} [DecidableEq α] (G : Group α) {i : α}
    (C : GroupCtx G.operation G.element_values i) {e b : α}
    (he : e ∈ G.element_values) (hb : b ∈ G.element_values)
    (heb : G.operation e b = i) (hbe : G.operation b e = i) :
    ∃ k, 1 ≤ k ∧ k ≤ G.element_values.length ∧
      opPow G.operation i e k = i := by
  have key : ∀ u v : Nat, u < v → v ≤ G.element_values.toFinset.card →
      opPow G.operation i e (u + 1) = opPow G.operation i e (v + 1) →
      ∃ k, 1 ≤ k ∧ k ≤ G.element_values.length ∧
        opPow G.operation i e k = i := by
    intro u v huv hv heq
    refine ⟨v - u, by omega,
      le_trans (by omega) G.element_values.toFinset_card_le, ?_⟩
    have hexp : opPow G.operation i e (v + 1) =
        G.operation (opPow G.operation i e (u + 1))
          (opPow G.operation i e (v - u)) := by
      have : v + 1 = (u + 1) + (v - u) := by omega
      rw [this, C.opPow_add he]
    have hchain : i = opPow G.operation i e (v - u) := by
      calc i = G.operation (opPow G.operation i b (u + 1))
            (opPow G.operation i e (u + 1)) :=
            (C.opPow_cancel hb he hbe (u + 1)).symm
        _ = G.operation (opPow G.operation i b (u + 1))
            (G.operation (opPow G.operation i e (u + 1))
              (opPow G.operation i e (v - u))) := by
            rw [← hexp, ← heq]
        _ = G.operation (G.operation (opPow G.operation i b (u + 1))
            (opPow G.operation i e (u + 1)))
            (opPow G.operation i e (v - u)) :=
            (C.assoc _ (C.opPow_mem hb _) _ (C.opPow_mem he _) _
              (C.opPow_mem he _)).symm
        _ = G.operation i (opPow G.operation i e (v - u)) := by
            rw [C.opPow_cancel hb he hbe (u + 1)]
        _ = opPow G.operation i e (v - u) :=
            C.idl _ (C.opPow_mem he _)
    exact hchain.symm
  have hmap : ∀ d ∈ Finset.range (G.element_values.toFinset.card + 1),
      opPow G.operation i e (d + 1) ∈ G.element_values.toFinset :=
    fun d _ => List.mem_toFinset.mpr (C.opPow_mem he (d + 1))
  have hcard : G.element_values.toFinset.card <
      (Finset.range (G.element_values.toFinset.card + 1)).card := by simp
  obtain ⟨x, hx, y, hy, hxy, heq⟩ :=
    Finset.exists_ne_map_eq_of_card_lt_of_maps_to hcard hmap
  rcases lt_or_gt_of_ne hxy with hlt | hgt
  · refine key x y hlt ?_ heq
    have := Finset.mem_range.mp hy
    omega
  · refine key y x hgt ?_ heq.symm
    have := Finset.mem_range.mp hx
    omega

lemma length_prependAll {α : Type} (l : List α) (rs : List (List α)) :
    (cartesianProduct.prependAll l rs).length = l.length * rs.length := by
  induction l with
  | nil => simp [cartesianProduct.prependAll]
  | cons x xs ih =>
    simp [cartesianProduct.prependAll, ih, Nat.succ_mul, Nat.add_comm]

lemma mem_prependAll {α : Type} (l : List α) (rs : List (List α))
    (x : List α) :
    x ∈ cartesianProduct.prependAll l rs ↔
      ∃ a ∈ l, ∃ r ∈ rs, x = a :: r := by
  induction l with
  | nil => simp [cartesianProduct.prependAll]
  | cons a as ih =>
    simp only [cartesianProduct.prependAll, List.mem_append, List.mem_map,
      ih, List.mem_cons]
    constructor
    · rintro (⟨r, hr, rfl⟩ | ⟨a', ha', r, hr, rfl⟩)
      · exact ⟨a, Or.inl rfl, r, hr, rfl⟩
      · exact ⟨a', Or.inr ha', r, hr, rfl⟩
    · rintro ⟨a', ha' | ha', r, hr, rfl⟩
      · exact Or.inl ⟨r, hr, by rw [ha']⟩
      · exact Or.inr ⟨a', ha', r, hr, rfl⟩

lemma mem_pair_product {α : Type} [DecidableEq α] (A B : Group α)
    (x : List α) :
    x ∈ (Group.directProduct [A, B]).element_values ↔
      ∃ a ∈ A.element_values, ∃ b ∈ B.element_values, x = [a, b] := by
  show x ∈ cartesianProduct.prependAll A.element_values
      (cartesianProduct.prependAll B.element_values [[]]) ↔ _
  rw [mem_prependAll]
  constructor
  · rintro ⟨a, ha, r, hr, rfl⟩
    rw [mem_prependAll] at hr
    obtain ⟨b, hb, r', hr', rfl⟩ := hr
    simp only [List.mem_singleton] at hr'
    exact ⟨a, ha, b, hb, by rw [hr']⟩
  · rintro ⟨a, ha, b, hb, rfl⟩
    exact ⟨a, ha, [b], (mem_prependAll _ _ _).mpr
      ⟨b, hb, [], List.mem_singleton.mpr rfl, rfl⟩, rfl⟩

lemma collect_of_not_none (items : List (Option String)) (h : none ∉ items) :
    joinStrs.collect items = some (items.map fun o => o.getD "") := by
  induction items with
  | nil => rfl
  | cons o rest ih =>
    match o with
    | none => exact absurd (List.mem_cons_self _ _) h
    | some s =>
      simp only [List.mem_cons, not_or] at h
      simp [joinStrs.collect, ih h.2]

lemma collect_of_mem_none (items : List (Option String))
    (h : none ∈ items) : joinStrs.collect items = none := by
  induction items with
  | nil => cases h
  | cons o rest ih =>
    match o with
    | none => rfl
    | some s =>
      simp only [List.mem_cons, reduceCtorEq, false_or] at h
      simp [joinStrs.collect, ih h]

/-! ## Claims -/

/-- Claim C7: `semidirect_product(N, H, action)` returns a group over the
pairs `(n, h)` with `n` in `N` and `h` in `H`, whose operation on
`((n1,h1), (n2,h2))` is `(N.operation(n1, action(h1, n2)),
H.operation(h1, h2))`, and whose identity value is left unset at
construction and derived lazily by the identity search; the semidirect
product of C4 and C2 under the negation action is non-abelian of order 8
with `r**4 == identity`, `s**2 == identity` and `r*s != s*r` for
`r = (1,0)`, `s = (0,1)`. -/
theorem C7_semidirect_product :
    (∀ {α β : Type} (N : Group α) (H : Group β) (action : β → α → α)
      (n1 n2 : α) (h1 h2 : β),
      (Group.semidirectProduct N H action).operation (n1, h1) (n2, h2) =
        (N.operation n1 (action h1 n2), H.operation h1 h2)) ∧
    (∀ {α β : Type} (N : Group α) (H : Group β) (action : β → α → α),
      (Group.semidirectProduct N H action).identity_value = none) ∧
    (∀ {α β : Type} (N : Group α) (H : Group β) (action : β → α → α)
      (p : α × β),
      p ∈ (Group.semidirectProduct N H action).element_values ↔
        p.1 ∈ N.element_values ∧ p.2 ∈ H.element_values) ∧
    (pyD4.order = 8 ∧ pyD4.isAbelian = false ∧
      pyD4.identityValue = some (0, 0) ∧
      pyD4.identityGE = some ⟨(0, 0), pyD4⟩ ∧
      GroupElement.pow ⟨(1, 0), pyD4⟩ 4 = PowResult.ok ⟨(0, 0), pyD4⟩ ∧
      GroupElement.pow ⟨(0, 1), pyD4⟩ 2 = PowResult.ok ⟨(0, 0), pyD4⟩ ∧
      GroupElement.eqb ⟨(0, 0), pyD4⟩ ⟨(0, 0), pyD4⟩ = true ∧
      (GroupElement.mul ⟨(1, 0), pyD4⟩ ⟨(0, 1), pyD4⟩).eqb
        (GroupElement.mul ⟨(0, 1), pyD4⟩ ⟨(1, 0), pyD4⟩) = false) := by
  refine ⟨fun N H action n1 n2 h1 h2 => rfl, fun N H action => rfl,
    fun N H action p => mem_pairList _ _ p, ?_, ?_, ?_, ?_, ?_, ?_, ?_, ?_⟩
  · rfl
  · decide
  · decide
  · rfl
  · rfl
  · rfl
  · decide
  · decide

/-- Claim C8 counterexample: comparing a `GroupElement` to a foreign value
(here the integer `42`) raises `AttributeError` instead of returning a
not-equal / not-comparable result, contrary to the claim. -/
theorem C8_counterexample :
    GroupElement.eqPy ⟨(0 : Nat), pyC2⟩ (PyVal.foreign "42") =
      EqResult.attributeError ∧
    ¬(GroupElement.eqPy ⟨(0 : Nat), pyC2⟩ (PyVal.foreign "42") =
        EqResult.bool false ∨
      GroupElement.eqPy ⟨(0 : Nat), pyC2⟩ (PyVal.foreign "42") =
        EqResult.notImplemented) := by
  exact ⟨rfl, by rintro (h | h) <;> cases h⟩

/-- Claim C8, amended: `Group.__eq__` returns `NotImplemented` (a
not-comparable result that the interpreter resolves without raising) for any
operand that is not a `Group`, but `GroupElement.__eq__` raises
`AttributeError` for any operand without `element`/`group` attributes — a
foreign value or a `Group`. -/
theorem C8_foreign_equality :
    (∀ {α : Type} [inst : DecidableEq α] (G : Group α) (s : String),
      G.eqPy (PyVal.foreign s) = EqResult.notImplemented) ∧
    (∀ {α : Type} [inst : DecidableEq α] (G : Group α) (e : GroupElement α),
      G.eqPy (PyVal.elemObj e) = EqResult.notImplemented) ∧
    (∀ {α : Type} [inst : DecidableEq α] (e : GroupElement α) (s : String),
      e.eqPy (PyVal.foreign s) = EqResult.attributeError) ∧
    (∀ {α : Type} [inst : DecidableEq α] (e : GroupElement α) (H : Group α),
      e.eqPy (PyVal.groupObj H) = EqResult.attributeError) :=
  ⟨fun G s => rfl, fun G e => rfl, fun e s => rfl, fun e H => rfl⟩

/-- Claim C9 counterexample: a `NamedGroup` factor always has a `name`
attribute, so when that attribute is `None` the `getattr` default is not
used; `" × ".join` then receives `None` and raises `TypeError` instead of
producing the placeholder name `"Group0"` the claim promises. -/
theorem C9_counterexample :
    productName [FactorName.attr none] =
      Except.error
        "TypeError: sequence item: expected str instance, NoneType found" ∧
    ∀ s : String, productName [FactorName.attr none] ≠ Except.ok s := by
  exact ⟨rfl, fun s h => by cases h⟩

/-- Claim C9, amended: the product's name joins the factors' names with
`" × "`, substituting `"Group<i>"` only for a factor with no `name`
attribute at all (a plain `Group`); if any factor has its `name` attribute
set to `None` (a `NamedGroup` built without a name), the join raises
`TypeError` instead. -/
theorem C9_product_name :
    (∀ factors : List FactorName,
      (∀ f ∈ factors, f ≠ FactorName.attr none) →
      productName factors =
        Except.ok (String.intercalate " × "
          (factors.enum.map fun p => (getattrName p.1 p.2).getD ""))) ∧
    (∀ factors : List FactorName,
      FactorName.attr none ∈ factors →
      productName factors =
        Except.error
          "TypeError: sequence item: expected str instance, NoneType found") := by
  constructor
  · intro factors hf
    have hnone : none ∉ factors.enum.map fun p => getattrName p.1 p.2 := by
      simp only [List.mem_map, not_exists]
      rintro ⟨i, f⟩ ⟨hmem, hget⟩
      have hfmem : f ∈ factors :=
        List.get?_mem (List.mem_enum_iff_get?.mp hmem)
      have hf' := hf f hfmem
      match f with
      | FactorName.noAttr => exact absurd hget (by simp [getattrName])
      | FactorName.attr (some s) => exact absurd hget (by simp [getattrName])
      | FactorName.attr none => exact hf' rfl
    simp only [productName, joinStrs, collect_of_not_none _ hnone]
    rw [List.map_map]
    rfl
  · intro factors hmem
    obtain ⟨i, hi⟩ := List.mem_iff_get?.mp hmem
    have henum : ((i, FactorName.attr none) : Nat × FactorName) ∈
        factors.enum := List.mem_enum_iff_get?.mpr hi
    have hnone : none ∈ factors.enum.map fun p => getattrName p.1 p.2 :=
      List.mem_map.mpr ⟨(i, FactorName.attr none), henum, rfl⟩
    simp [productName, joinStrs, collect_of_mem_none _ hnone]

/-- Claim C9 witness. -/
theorem C9_product_name_witness :
    ((∀ f ∈ [FactorName.attr (some "C2"), FactorName.noAttr],
      f ≠ FactorName.attr none) ∧
     productName [FactorName.attr (some "C2"), FactorName.noAttr] =
       Except.ok "C2 × Group1") ∧
    (FactorName.attr none ∈ [FactorName.attr none] ∧
     productName [FactorName.attr none] =
       Except.error
         "TypeError: sequence item: expected str instance, NoneType found") :=
  ⟨⟨by decide, by
    have h := C9_product_name.1
      [FactorName.attr (some "C2"), FactorName.noAttr] (by decide)
    simpa using h⟩,
   ⟨by decide, C9_product_name.2 [FactorName.attr none] (by decide)⟩⟩

/-- Claim C10: `direct_product()` with zero factors returns the trivial
one-element group: its sole element is the empty tuple, its operation always
returns the empty tuple, and its identity value is the empty tuple. -/
theorem C10_empty_direct_product {α : Type} [DecidableEq α] :
    (Group.directProduct ([] : List (Group α))).element_values = [[]] ∧
    (∀ a b : List α,
      (Group.directProduct ([] : List (Group α))).operation a b = []) ∧
    (Group.directProduct ([] : List (Group α))).identity_value = some [] ∧
    (Group.directProduct ([] : List (Group α))).order = 1 :=
  ⟨rfl, fun a b => rfl, rfl, rfl⟩

/-- Claim C5: `G1 == G2` holds iff the element sets are equal as sets, the
cached identity values are equal (including both absent), and the operations
agree on every ordered pair of elements; in particular two groups whose
element lists are permutations of each other, with extensionally identical
operations and equal identity, compare equal. -/
theorem C5_group_equality :
    (∀ {α : Type} [inst : DecidableEq α] (G H : Group α),
      G.eqb H = true ↔
        ((∀ x ∈ G.element_values, x ∈ H.element_values) ∧
         (∀ x ∈ H.element_values, x ∈ G.element_values) ∧
         G.identity_value = H.identity_value ∧
         (∀ a ∈ G.element_values, ∀ b ∈ G.element_values,
           G.operation a b = H.operation a b) ∧
         (∀ a ∈ H.element_values, ∀ b ∈ H.element_values,
           G.operation a b = H.operation a b))) ∧
    (∀ {α : Type} [inst : DecidableEq α] (G H : Group α),
      H.element_values.Perm G.element_values →
      G.identity_value = H.identity_value →
      (∀ a b : α, G.operation a b = H.operation a b) →
      G.eqb H = true) := by
  constructor
  · intro α inst G H
    rw [Group.eqb_iff]
    constructor
    · rintro ⟨h1, h2, h3, h4⟩
      exact ⟨h1, h2, h3, h4, fun a ha b hb => h4 a (h2 a ha) b (h2 b hb)⟩
    · rintro ⟨h1, h2, h3, h4, h5⟩
      exact ⟨h1, h2, h3, h4⟩
  · intro α inst G H hperm hid hop
    rw [Group.eqb_iff]
    exact ⟨fun x hx => hperm.mem_iff.mpr hx, fun x hx => hperm.mem_iff.mp hx,
      hid, fun a _ b _ => hop a b⟩

/-- Claim C5 witness: the two-element groups with element lists `[0, 1]` and
`[1, 0]`, the same operation and the same identity compare equal. -/
theorem C5_group_equality_witness :
    ([1, 0] : List Nat).Perm [0, 1] ∧
    pyC2.identity_value =
      (⟨[1, 0], fun a b => (a + b) % 2, some 0⟩ : Group Nat).identity_value ∧
    pyC2.eqb ⟨[1, 0], fun a b => (a + b) % 2, some 0⟩ = true :=
  ⟨by decide, rfl,
    C5_group_equality.2 pyC2 ⟨[1, 0], fun a b => (a + b) % 2, some 0⟩
      (by decide) rfl (fun a b => rfl)⟩

/-- Claim C6: the direct product of groups `A` and `B` has order
`order(A) * order(B)`, applies factor `i`'s operation to component `i`, has
its identity value precomputed at construction as the tuple of the factors'
identity labels, and is abelian whenever both factors are. -/
theorem C6_direct_product {α : Type} [inst : DecidableEq α] (A B : Group α) :
    (Group.directProduct [A, B]).order = A.order * B.order ∧
    (∀ a1 b1 a2 b2 : α,
      (Group.directProduct [A, B]).operation [a1, b1] [a2, b2] =
        [A.operation a1 a2, B.operation b1 b2]) ∧
    (∀ iA iB : α, A.identityValue = some iA → B.identityValue = some iB →
      (Group.directProduct [A, B]).identity_value = some [iA, iB]) ∧
    (A.isAbelian = true → B.isAbelian = true →
      (Group.directProduct [A, B]).isAbelian = true) := by
  refine ⟨?_, fun a1 b1 a2 b2 => rfl, ?_, ?_⟩
  · show (cartesianProduct.prependAll A.element_values
      (cartesianProduct.prependAll B.element_values [[]])).length = _
    rw [length_prependAll, length_prependAll]
    simp [Group.order]
  · intro iA iB hA hB
    show identityTuple [A, B] = some [iA, iB]
    simp [identityTuple, hA, hB]
  · intro hA hB
    simp only [Group.isAbelian, List.all_eq_true, beq_iff_eq] at hA hB ⊢
    intro x hx y hy
    obtain ⟨a, ha, b, hb, rfl⟩ := (mem_pair_product A B x).mp hx
    obtain ⟨a', ha', b', hb', rfl⟩ := (mem_pair_product A B y).mp hy
    show [A.operation a a', B.operation b b'] =
      [A.operation a' a, B.operation b' b]
    rw [hA a ha a' ha', hB b hb b' hb']

/-- Claim C6 witness: the direct product of C2 and C3. -/
theorem C6_direct_product_witness :
    (pyC2.identityValue = some 0 ∧ pyC3.identityValue = some 0 ∧
      pyC2.isAbelian = true ∧ pyC3.isAbelian = true) ∧
    ((Group.directProduct [pyC2, pyC3]).order = pyC2.order * pyC3.order ∧
     (Group.directProduct [pyC2, pyC3]).operation [1, 0] [0, 1] = [1, 1] ∧
     (Group.directProduct [pyC2, pyC3]).identity_value = some [0, 0] ∧
     (Group.directProduct [pyC2, pyC3]).isAbelian = true) := by
  refine ⟨⟨rfl, rfl, rfl, rfl⟩, ?_, ?_, ?_, ?_⟩
  · exact (C6_direct_product pyC2 pyC3).1
  · exact (C6_direct_product pyC2 pyC3).2.1 1 0 0 1
  · exact (C6_direct_product pyC2 pyC3).2.2.1 0 0 rfl rfl
  · exact (C6_direct_product pyC2 pyC3).2.2.2 rfl rfl

/-- Claim C1: on a group satisfying the group axioms, `e * G.identity() == e`
and `G.identity() * e == e` for every element `e`; `identity()` finds the
two-sided identity by searching the element set, caches it, and returns the
same label on every subsequent call. -/
theorem C1_identity_laws :
    ∀ {α : Type} [inst : DecidableEq α] (G : Group α), IsGroup G →
    ∀ e ∈ G.element_values,
    ∃ i, G.identityValue = some i ∧ G.identityGE = some ⟨i, G⟩ ∧
      IsIdentityElem G i ∧
      (GroupElement.mul ⟨e, G⟩ ⟨i, G⟩).eqb ⟨e, G⟩ = true ∧
      (GroupElement.mul ⟨i, G⟩ ⟨e, G⟩).eqb ⟨e, G⟩ = true ∧
      G.identityCache.identity_value = some i ∧
      G.identityCache.identityValue = some i := by
  intro α inst G h e he
  obtain ⟨i, hidv, hiM, hid⟩ := identityValue_spec G h
  refine ⟨i, hidv, ?_, hid, ?_, ?_, ?_, ?_⟩
  · simp [Group.identityGE, hidv]
  · simp [GroupElement.mul, GroupElement.eqb, (hid e he).2, Group.eqb_refl]
  · simp [GroupElement.mul, GroupElement.eqb, (hid e he).1, Group.eqb_refl]
  · simp [Group.identityCache, hidv]
  · have hc : G.identityCache.identity_value = some i := by
      simp [Group.identityCache, hidv]
    simp [Group.identityValue, hc]

/-- Claim C1 witness: the cyclic group of order 4 at element 1. -/
theorem C1_identity_laws_witness :
    IsGroup pyC4 ∧ (1 : Nat) ∈ pyC4.element_values ∧
    ∃ i, pyC4.identityValue = some i ∧
      pyC4.identityGE = some ⟨i, pyC4⟩ ∧
      IsIdentityElem pyC4 i ∧
      (GroupElement.mul ⟨1, pyC4⟩ ⟨i, pyC4⟩).eqb ⟨1, pyC4⟩ = true ∧
      (GroupElement.mul ⟨i, pyC4⟩ ⟨1, pyC4⟩).eqb ⟨1, pyC4⟩ = true ∧
      pyC4.identityCache.identity_value = some i ∧
      pyC4.identityCache.identityValue = some i :=
  ⟨pyC4_isGroup, by decide,
    C1_identity_laws pyC4 pyC4_isGroup 1 (by decide)⟩

/-- Claim C2: `inverse(a)` returns the first element `x` of the element set
with `operation(a, x) == identity` and `operation(x, a) == identity`, and
raises the "Inverse not found for a" `ValueError` exactly when no such `x`
exists; on a well-formed group, `e * e.inverse() == G.identity()` and
`e.inverse() * e == G.identity()` for every element. -/
theorem C2_inverse :
    (∀ {α : Type} [inst : DecidableEq α] [inst2 : ToString α]
      (G : Group α) (a x : α),
      G.inverse a = Except.ok x →
        x ∈ G.element_values ∧
        some (G.operation a x) = G.identityValue ∧
        some (G.operation x a) = G.identityValue ∧
        ∃ l1 l2, G.element_values = l1 ++ x :: l2 ∧
          ∀ y ∈ l1, ¬(some (G.operation a y) = G.identityValue ∧
            some (G.operation y a) = G.identityValue)) ∧
    (∀ {α : Type} [inst : DecidableEq α] [inst2 : ToString α]
      (G : Group α) (a : α),
      G.inverse a = Except.error ("Inverse not found for " ++ toString a) ↔
        ∀ x ∈ G.element_values,
          ¬(some (G.operation a x) = G.identityValue ∧
            some (G.operation x a) = G.identityValue)) ∧
    (∀ {α : Type} [inst : DecidableEq α] [inst2 : ToString α]
      (G : Group α), IsGroup G → ∀ e ∈ G.element_values,
      ∃ b i, G.inverse e = Except.ok b ∧ G.identityValue = some i ∧
        GroupElement.inverse ⟨e, G⟩ = Except.ok ⟨b, G⟩ ∧
        (GroupElement.mul ⟨e, G⟩ ⟨b, G⟩).eqb ⟨i, G⟩ = true ∧
        (GroupElement.mul ⟨b, G⟩ ⟨e, G⟩).eqb ⟨i, G⟩ = true) := by
  refine ⟨?_, ?_, ?_⟩
  · intro α inst inst2 G a x hok
    rcases hfind : G.element_values.find? (fun x =>
        (some (G.operation a x) == G.identityValue) &&
        (some (G.operation x a) == G.identityValue)) with _ | x₀
    · rw [Group.inverse, hfind] at hok; cases hok
    · rw [Group.inverse, hfind] at hok
      injection hok with hx
      subst hx
      obtain ⟨hp, l1, l2, hdecomp, hl1⟩ := find?_first hfind
      simp only [Bool.and_eq_true, beq_iff_eq] at hp
      refine ⟨List.mem_of_find?_eq_some hfind, hp.1, hp.2, l1, l2, hdecomp,
        ?_⟩
      intro y hy hcontr
      have := hl1 y hy
      simp only [Bool.and_eq_true, beq_iff_eq] at this
      rw [hcontr.1, hcontr.2] at this
      simp at this
  · intro α inst inst2 G a
    rcases hfind : G.element_values.find? (fun x =>
        (some (G.operation a x) == G.identityValue) &&
        (some (G.operation x a) == G.identityValue)) with _ | x₀
    · refine iff_of_true (by rw [Group.inverse, hfind]) ?_
      intro x hx hcontr
      have := List.find?_eq_none.mp hfind x hx
      simp only [Bool.and_eq_true, beq_iff_eq, not_and] at this
      exact this hcontr.1 hcontr.2
    · refine iff_of_false (by rw [Group.inverse, hfind]; exact fun h => by cases h) ?_
      intro hall
      have hp := List.find?_some hfind
      simp only [Bool.and_eq_true, beq_iff_eq] at hp
      exact hall x₀ (List.mem_of_find?_eq_some hfind) ⟨hp.1, hp.2⟩
  · intro α inst inst2 G h e he
    obtain ⟨i, hidv, hiM, hid⟩ := identityValue_spec G h
    obtain ⟨b, hinv, hbM, hab, hba⟩ := inverse_ok G h hidv e he
    refine ⟨b, i, hinv, hidv, ?_, ?_, ?_⟩
    · simp [GroupElement.inverse, hinv, Except.map]
    · simp [GroupElement.mul, GroupElement.eqb, hab, Group.eqb_refl]
    · simp [GroupElement.mul, GroupElement.eqb, hba, Group.eqb_refl]

/-- Claim C2 witness: in the cyclic group of order 4, the inverse of 1 is 3
and the inverse laws hold there. -/
theorem C2_inverse_witness :
    (pyC4.inverse 1 = Except.ok 3 ∧ IsGroup pyC4 ∧
      (1 : Nat) ∈ pyC4.element_values) ∧
    ((3 : Nat) ∈ pyC4.element_values ∧
      some (pyC4.operation 1 3) = pyC4.identityValue ∧
      some (pyC4.operation 3 1) = pyC4.identityValue ∧
      ∃ l1 l2, pyC4.element_values = l1 ++ 3 :: l2 ∧
        ∀ y ∈ l1, ¬(some (pyC4.operation 1 y) = pyC4.identityValue ∧
          some (pyC4.operation y 1) = pyC4.identityValue)) ∧
    (∃ b i, pyC4.inverse 1 = Except.ok b ∧ pyC4.identityValue = some i ∧
      GroupElement.inverse ⟨1, pyC4⟩ = Except.ok ⟨b, pyC4⟩ ∧
      (GroupElement.mul ⟨1, pyC4⟩ ⟨b, pyC4⟩).eqb ⟨i, pyC4⟩ = true ∧
      (GroupElement.mul ⟨b, pyC4⟩ ⟨1, pyC4⟩).eqb ⟨i, pyC4⟩ = true) :=
  ⟨⟨rfl, pyC4_isGroup, by decide⟩,
    C2_inverse.1 pyC4 1 3 rfl,
    C2_inverse.2.2 pyC4 pyC4_isGroup 1 (by decide)⟩

/-- Claim C3: on a well-formed group, `e ** 0` is the identity, `e ** 1`
is `e`, `e ** (-1)` is `e.inverse()`, and `e ** (m + n) == e**m * e**n` for
all integers `m` and `n`. -/
theorem C3_pow_laws :
    ∀ {α : Type} [inst : DecidableEq α] [inst2 : ToString α] (G : Group α),
    IsGroup G → ∀ e ∈ G.element_values,
    (∃ g i, GroupElement.pow ⟨e, G⟩ 0 = PowResult.ok g ∧
      G.identityGE = some ⟨i, G⟩ ∧ g.eqb ⟨i, G⟩ = true) ∧
    (∃ g, GroupElement.pow ⟨e, G⟩ 1 = PowResult.ok g ∧
      g.eqb ⟨e, G⟩ = true) ∧
    (∃ g ginv, GroupElement.pow ⟨e, G⟩ (-1) = PowResult.ok g ∧
      GroupElement.inverse ⟨e, G⟩ = Except.ok ginv ∧ g.eqb ginv = true) ∧
    (∀ m n : Int, ∃ gmn gm gn,
      GroupElement.pow ⟨e, G⟩ (m + n) = PowResult.ok gmn ∧
      GroupElement.pow ⟨e, G⟩ m = PowResult.ok gm ∧
      GroupElement.pow ⟨e, G⟩ n = PowResult.ok gn ∧
      gmn.eqb (gm.mul gn) = true) := by
  intro α inst inst2 G h e he
  obtain ⟨i, hidv, hiM, hid⟩ := identityValue_spec G h
  obtain ⟨b, hinv, hbM, hab, hba⟩ := inverse_ok G h hidv e he
  have C : GroupCtx G.operation G.element_values i :=
    ⟨h.closed, h.assoc, fun x hx => (hid x hx).1, fun x hx => (hid x hx).2,
      hiM⟩
  have hpw := pow_eq G hidv (C.idl e he) (C.idl b hbM) hinv
  refine ⟨⟨_, i, hpw 0, ?_, ?_⟩, ⟨_, hpw 1, ?_⟩,
    ⟨_, ⟨b, G⟩, hpw (-1), ?_, ?_⟩, ?_⟩
  · simp [Group.identityGE, hidv]
  · simp [GroupElement.eqb, zOpPow, opPow, Group.eqb_refl]
  · have h1 : zOpPow G.operation i e b 1 = e := by
      have : opPow G.operation i e 1 = e := by
        show G.operation i e = e
        exact C.idl e he
      simp [zOpPow, this]
    simp [GroupElement.eqb, h1, Group.eqb_refl]
  · simp [GroupElement.inverse, hinv, Except.map]
  · have h1 : zOpPow G.operation i e b (-1) = b := by
      have : opPow G.operation i b 1 = b := by
        show G.operation i b = b
        exact C.idl b hbM
      simp [zOpPow, this]
    simp [GroupElement.eqb, h1, Group.eqb_refl]
  · intro m n
    refine ⟨_, _, _, hpw (m + n), hpw m, hpw n, ?_⟩
    simp [GroupElement.mul, GroupElement.eqb,
      C.zOpPow_add he hbM hab hba m n, Group.eqb_refl]

/-- Claim C3 witness: the exponent laws at element 1 of the cyclic group of
order 4, with the addition law instantiated at `m = 2`, `n = -3`. -/
theorem C3_pow_laws_witness :
    IsGroup pyC4 ∧ (1 : Nat) ∈ pyC4.element_values ∧
    (∃ g i, GroupElement.pow ⟨1, pyC4⟩ 0 = PowResult.ok g ∧
      pyC4.identityGE = some ⟨i, pyC4⟩ ∧ g.eqb ⟨i, pyC4⟩ = true) ∧
    (∃ g, GroupElement.pow ⟨1, pyC4⟩ 1 = PowResult.ok g ∧
      g.eqb ⟨1, pyC4⟩ = true) ∧
    (∃ g ginv, GroupElement.pow ⟨1, pyC4⟩ (-1) = PowResult.ok g ∧
      GroupElement.inverse ⟨1, pyC4⟩ = Except.ok ginv ∧
      g.eqb ginv = true) ∧
    (∃ gmn gm gn, GroupElement.pow ⟨1, pyC4⟩ (2 + -3) = PowResult.ok gmn ∧
      GroupElement.pow ⟨1, pyC4⟩ 2 = PowResult.ok gm ∧
      GroupElement.pow ⟨1, pyC4⟩ (-3) = PowResult.ok gn ∧
      gmn.eqb (gm.mul gn) = true) := by
  have h := C3_pow_laws pyC4 pyC4_isGroup 1 (by decide)
  exact ⟨pyC4_isGroup, by decide, h.1, h.2.1, h.2.2.1, h.2.2.2 2 (-3)⟩

/-- Claim C4: on a well-formed finite group, `e.order()` terminates and
returns the smallest positive `k` with `e ** k` equal to the group's
identity; an element equal to the identity reports order 1 without entering
the loop body (the loop succeeds even with zero fuel). -/
theorem C4_element_order :
    ∀ {α : Type} [inst : DecidableEq α] [inst2 : ToString α] (G : Group α),
    IsGroup G → ∀ e ∈ G.element_values,
    ∃ k i, GroupElement.order ⟨e, G⟩ = some k ∧ 0 < k ∧
      G.identityGE = some ⟨i, G⟩ ∧
      (∃ g, GroupElement.pow ⟨e, G⟩ (k : Int) = PowResult.ok g ∧
        g.eqb ⟨i, G⟩ = true) ∧
      (∀ j : Nat, 0 < j → j < k →
        ∀ g, GroupElement.pow ⟨e, G⟩ (j : Int) = PowResult.ok g →
          g.eqb ⟨i, G⟩ = false) ∧
      (IsIdentityElem G e → k = 1 ∧ G.orderLoop e 0 e 1 = some 1) := by
  intro α inst inst2 G h e he
  obtain ⟨i, hidv, hiM, hid⟩ := identityValue_spec G h
  obtain ⟨b, hinv, hbM, hab, hba⟩ := inverse_ok G h hidv e he
  have C : GroupCtx G.operation G.element_values i :=
    ⟨h.closed, h.assoc, fun x hx => (hid x hx).1, fun x hx => (hid x hx).2,
      hiM⟩
  have hpw := pow_eq G hidv (C.idl e he) (C.idl b hbM) hinv
  have he1 : opPow G.operation i e 1 = e := by
    show G.operation i e = e
    exact C.idl e he
  have hstep : ∀ d, stepMul G e e d = opPow G.operation i e (1 + d) := by
    intro d
    have hs := stepMul_opPow G i e d 1
    rw [he1] at hs
    exact hs
  obtain ⟨k₁, hk1, hk2, hk3⟩ := exists_opPow_eq_id G C he hbM hab hba
  obtain ⟨d₀, hcond₀, hmin, hrun⟩ := orderLoop_some G e
    G.element_values.length e 1
    ⟨k₁ - 1, by omega, by
      rw [hstep]
      rw [show 1 + (k₁ - 1) = k₁ by omega, hk3]
      exact (loopCond_iff G hidv i).mpr rfl⟩
  have hked : opPow G.operation i e (1 + d₀) = i := by
    rw [← hstep]
    exact (loopCond_iff G hidv _).mp hcond₀
  refine ⟨1 + d₀, i, hrun, by omega, by simp [Group.identityGE, hidv],
    ?_, ?_, ?_⟩
  · refine ⟨_, hpw ((1 + d₀ : Nat) : Int), ?_⟩
    have hz : zOpPow G.operation i e b (1 + (d₀ : Int)) = i := by
      rw [zOpPow, if_pos (by omega : (0 : Int) ≤ 1 + (d₀ : Int))]
      rw [show ((1 : Int) + (d₀ : Int)).toNat = 1 + d₀ by omega]
      exact hked
    simp [GroupElement.eqb, hz, Group.eqb_refl]
  · intro j hj0 hjk g hg
    rw [hpw (j : Nat)] at hg
    injection hg with hg'
    subst hg'
    have hz : zOpPow G.operation i e b ((j : Nat) : Int) =
        opPow G.operation i e j := by
      rw [zOpPow, if_pos (by omega)]
      rw [show ((j : Nat) : Int).toNat = j by omega]
    have hne : opPow G.operation i e j ≠ i := by
      have hcondj := hmin (j - 1) (by omega)
      rw [hstep, show 1 + (j - 1) = j by omega] at hcondj
      intro hcontr
      rw [(loopCond_iff G hidv _).mpr hcontr] at hcondj
      cases hcondj
    simp [GroupElement.eqb, hz, hne]
  · intro hide
    have hei : e = i := identity_unique G he hide hiM hid
    have hcondE : G.loopCond e = true := (loopCond_iff G hidv e).mpr hei
    constructor
    · by_contra hne
      have hd₀ : 0 < d₀ := by omega
      have := hmin 0 hd₀
      rw [show stepMul G e e 0 = e from rfl, hcondE] at this
      cases this
    · simp [Group.orderLoop, hcondE]

/-- Claim C4 witness: element 1 of the cyclic group of order 4 (order 4),
together with the identity element 0 (order 1 with zero fuel). -/
theorem C4_element_order_witness :
    (IsGroup pyC4 ∧ (1 : Nat) ∈ pyC4.element_values ∧
      (0 : Nat) ∈ pyC4.element_values) ∧
    (∃ k i, GroupElement.order ⟨1, pyC4⟩ = some k ∧ 0 < k ∧
      pyC4.identityGE = some ⟨i, pyC4⟩ ∧
      (∃ g, GroupElement.pow ⟨1, pyC4⟩ (k : Int) = PowResult.ok g ∧
        g.eqb ⟨i, pyC4⟩ = true) ∧
      (∀ j : Nat, 0 < j → j < k →
        ∀ g, GroupElement.pow ⟨1, pyC4⟩ (j : Int) = PowResult.ok g →
          g.eqb ⟨i, pyC4⟩ = false) ∧
      (IsIdentityElem pyC4 1 → k = 1 ∧
        pyC4.orderLoop 1 0 1 1 = some 1)) ∧
    (∃ k i, GroupElement.order ⟨0, pyC4⟩ = some k ∧ 0 < k ∧
      pyC4.identityGE = some ⟨i, pyC4⟩ ∧
      (∃ g, GroupElement.pow ⟨0, pyC4⟩ (k : Int) = PowResult.ok g ∧
        g.eqb ⟨i, pyC4⟩ = true) ∧
      (∀ j : Nat, 0 < j → j < k →
        ∀ g, GroupElement.pow ⟨0, pyC4⟩ (j : Int) = PowResult.ok g →
          g.eqb ⟨i, pyC4⟩ = false) ∧
      (IsIdentityElem pyC4 0 → k = 1 ∧
        pyC4.orderLoop 0 0 0 1 = some 1)) :=
  ⟨⟨pyC4_isGroup, by decide, by decide⟩,
    C4_element_order pyC4 pyC4_isGroup 1 (by decide),
    C4_element_order pyC4 pyC4_isGroup 0 (by decide)⟩

end GroupTheory
